import Mathlib

set_option linter.unusedSectionVars false

/-!
# Verification of the `geocollection` spatial index

Shallow embedding of `geocollection.go` (package `geocollection`): a
multi-resolution spatial index over s2 cells.  The collection keeps

* `cells`  : for each s2 level, a map from cell position to the set of keys
  of items located in that cell (`cellItems`),
* `keys`   : a reverse index from key to the list of `(cellPosition,
  cellLevel)` entries it is indexed under (`itemIndex`),
* `items`  : the authoritative key to contents/location record map.

Go `map`s are modelled as functions into `Option`/`List` (a missing entry is
`none` / the empty list, matching Go zero-value semantics); the key sets
stored in `cells` are duplicate-free lists.  Keys (`interface{}` with `==`)
are a type with decidable equality; Go `interface{}` contents values are
`Option V` so that `nil` is representable (`none`); `float64` coordinates
are an abstract type `C` with decidable equality, since the collection code
itself only ever compares them with `==`.

The spherical-geometry provider (`s2`) is external to the repository; the
pure 64-bit cell-id arithmetic the collection calls (`Parent`, `Pos`,
`Level` from golang/geo) is embedded exactly, while `CellIDFromLatLng` and
the region coverer are parameters (`lf` below, and the `cover` argument of
`ItemsWithinDistance`).
-/

/-! ## S2 cell-id arithmetic (golang/geo `cellid.go`, as called by the repo)

A cell id is a 64-bit value: 3 face bits followed by 61 position bits, the
lowest set bit encoding the level.  We use `Nat` values below `2 ^ 64`;
two's-complement negation `-x` becomes `(2 ^ 64 - x) % 2 ^ 64`. -/

/-- maxCellLevel is the number of levels to specify a leaf cell in s2
(constant copied into the repository from s2). -/
def maxCellLevel : Nat := 30

/-- Size of the 64-bit value space. -/
def u64Size : Nat := 2 ^ 64

/-- lsbForLevel returns the lowest-numbered bit that is on for cells at the
given level (golang/geo: `1 << uint64(2*(maxLevel-level))`). -/
def lsbForLevel (level : Nat) : Nat := 2 ^ (2 * (maxCellLevel - level))

/-- cellLsb is golang/geo `CellID.lsb`: `uint64(ci) & -uint64(ci)`, the
lowest set bit of the id (0 for the id 0). -/
def cellLsb (ci : Nat) : Nat := ci &&& ((u64Size - ci) % u64Size)

/-- Fuel-driven base-2 logarithm; with fuel 64 it computes `floor (log2 n)`
for every 64-bit `n` (and 0 at 0), by structural recursion so that the
kernel can evaluate it. -/
def log2Fuel : Nat → Nat → Nat
  | 0, _ => 0
  | fuel + 1, n => if n ≤ 1 then 0 else log2Fuel fuel (n / 2) + 1

/-- Base-2 logarithm of a 64-bit value. -/
def lg2 (n : Nat) : Nat := log2Fuel 64 n

/-- parentCell is golang/geo `CellID.Parent`: `(uint64(ci) & -lsb) | lsb`
where `lsb = lsbForLevel level`; it clears all bits below the level's lsb
and sets that lsb, yielding the ancestor cell id at `level`. -/
def parentCell (ci level : Nat) : Nat :=
  (ci &&& (u64Size - lsbForLevel level)) ||| lsbForLevel level

/-- cellPos is golang/geo `CellID.Pos`: `uint64(ci) & (^uint64(0) >> 3)`,
the position of the cell within its face — the low 61 bits, with the 3 face
bits stripped. -/
def cellPos (ci : Nat) : Nat := ci &&& (2 ^ 61 - 1)

/-- cellLevel is golang/geo `CellID.Level`:
`maxLevel - findLSBSetNonZero64(uint64(ci)) >> 1`; the index of the lowest
set bit is recovered as `lg2 (cellLsb ci)`. -/
def cellLevel (ci : Nat) : Nat := maxCellLevel - lg2 (cellLsb ci) / 2

/-- ancPos abbreviates the position (within its face) of the ancestor at
`level` of the leaf cell `leaf`: the value `leafCellID.Parent(level).Pos()`
that `Set` stores in the index. -/
def ancPos (leaf level : Nat) : Nat := cellPos (parentCell leaf level)

theorem cellLevel_le (ci : Nat) : cellLevel ci ≤ maxCellLevel :=
  Nat.sub_le _ _

/-! ## Data model (`geocollection.go`) -/

/-- itemIndex keeps track of which cells a given item belongs to in order to
enable fast deletions. -/
structure ItemIndex where
  cellPosition : Nat
  cellLevel : Nat
deriving DecidableEq, Repr

/-- collectionContents stores the contents of a key and the original
latitude and longitude stored with the key.  `contents` is a Go
`interface{}` value, hence an `Option V` (`none` is Go `nil`). -/
structure CollectionContents (V C : Type) where
  contents : Option V
  latitude : C
  longitude : C
deriving DecidableEq, Repr

/-- Collection provides a location based cache: `cells` maps cell level to
the items contained in each cell at that zoom level, `keys` maps each key
stored to its associated cells to enable fast deletions, `items` maps the
item key to the item contents.  (The Go struct also holds a mutex; locking
is not part of the functional state.) -/
structure Collection (K V C : Type) where
  cells : Nat → Nat → List K
  keys : K → Option (List ItemIndex)
  items : List (K × CollectionContents V C)

variable {K V C : Type} [DecidableEq K] [DecidableEq C]

/-- Lookup in the `items` map (`c.items[key]`): the (unique) entry whose
key equals `k`, if any. -/
def itemsLookup : List (K × CollectionContents V C) → K →
    Option (CollectionContents V C)
  | [], _ => none
  | a :: t, k => if a.1 = k then some a.2 else itemsLookup t k

/-- Map store `c.items[key] = newContents`: replace the entry for `k` if
present, otherwise add one (keys in a Go map are unique). -/
def itemsStore : List (K × CollectionContents V C) → K →
    CollectionContents V C → List (K × CollectionContents V C)
  | [], k, r => [(k, r)]
  | a :: t, k, r => if a.1 = k then (k, r) :: t else a :: itemsStore t k r

/-- Map delete `delete(c.items, key)`: remove the entry for `k` (a no-op
when absent). -/
def itemsErase : List (K × CollectionContents V C) → K →
    List (K × CollectionContents V C)
  | [], _ => []
  | a :: t, k => if a.1 = k then t else a :: itemsErase t k

/-- Set insertion `c.cells[level][cellPos][key] = true` on a key set kept as
a duplicate-free list. -/
def insertKey (k : K) (s : List K) : List K :=
  if k ∈ s then s else s ++ [k]

/-- Point update of the two-level `cells` map at one `(level, pos)` slot. -/
def updateCells (cs : Nat → Nat → List K) (level pos : Nat)
    (f : List K → List K) : Nat → Nat → List K :=
  fun l p => if l = level ∧ p = pos then f (cs l p) else cs l p

/-- The levels `Set` iterates over: `for level := maxCellLevel; level >= 0;
level--`, i.e. `[30, 29, ..., 0]`. -/
def levelsList : List Nat := (List.range (maxCellLevel + 1)).reverse

/-- The cell-index insertions performed by `Set`'s loop: at every level the
key is added to the slot of the leaf's ancestor at that level. -/
def addCells (k : K) (leaf : Nat) (cs : Nat → Nat → List K) :
    Nat → Nat → List K :=
  levelsList.foldl
    (fun acc level => updateCells acc level (ancPos leaf level) (insertKey k))
    cs

/-- The reverse-index list `Set`'s loop builds for a key by appending
`itemIndex{cellPosition: leafCellID.Parent(level).Pos(), cellLevel: level}`
for `level = 30, ..., 0`. -/
def indexList (leaf : Nat) : List ItemIndex :=
  levelsList.map (fun level => ⟨ancPos leaf level, level⟩)

/-- The cell-index removals performed by `delete`'s loop:
`delete(c.cells[index.cellLevel][index.cellPosition], key)` for every
recorded index entry. -/
def removeCells (k : K) (idxs : List ItemIndex) (cs : Nat → Nat → List K) :
    Nat → Nat → List K :=
  idxs.foldl
    (fun acc idx =>
      updateCells acc idx.cellLevel idx.cellPosition (fun s => s.erase k))
    cs

/-- NewCollection creates a new collection (all three maps empty). -/
def NewCollection : Collection K V C :=
  { cells := fun _ _ => [], keys := fun _ => none, items := [] }

/-- delete is the internal function that actually performs the deletion:
remove the item record, then — if the key has reverse-index entries —
remove the key from every recorded cell slot and drop its reverse-index
list. -/
def Collection.delete (c : Collection K V C) (k : K) : Collection K V C :=
  let items2 := itemsErase c.items k
  match c.keys k with
  | none => { c with items := items2 }
  | some idxs =>
      { items := items2
        keys := fun k2 => if k2 = k then none else c.keys k2
        cells := removeCells k idxs c.cells }

/-- Delete removes an item by its key from the collection (the exported
wrapper only adds locking around `delete`). -/
def Collection.Delete (c : Collection K V C) (k : K) : Collection K V C :=
  c.delete k

/-- The reindexing path of `Set` (taken when the key is new or its location
changed): `c.delete(key)`, store the new record, then one loop over the
levels `30..0` that (a) inserts the key into the cell index at the leaf's
ancestor slot of each level and (b) appends that `(position, level)` pair
to the key's reverse-index list.  The loop's two effects touch independent
fields, so they are rendered as `addCells` and `indexList`. -/
def Collection.setIndexed (c : Collection K V C) (lf : C → C → Nat) (k : K)
    (nc : CollectionContents V C) : Collection K V C :=
  let c1 := c.delete k
  let leaf := lf nc.latitude nc.longitude
  { items := itemsStore c1.items k nc
    keys := fun k2 => if k2 = k then some (indexList leaf) else c1.keys k2
    cells := addCells k leaf c1.cells }

/-- Set adds an item with a given key to the geo collection at a particular
latitude and longitude.  If the key is already stored at exactly the same
latitude and longitude, only the record is swapped; otherwise the key is
fully reindexed.  `lf` is the external geometry provider's
`CellIDFromLatLng(LatLngFromDegrees(latitude, longitude))`. -/
def Collection.Set (c : Collection K V C) (lf : C → C → Nat) (k : K)
    (v : Option V) (lat lon : C) : Collection K V C :=
  let newContents : CollectionContents V C :=
    { contents := v, latitude := lat, longitude := lon }
  match itemsLookup c.items k with
  | some existingContents =>
      if existingContents.latitude = lat ∧ existingContents.longitude = lon then
        { c with items := itemsStore c.items k newContents }
      else
        c.setIndexed lf k newContents
  | none => c.setIndexed lf k newContents

/-- ItemByKey returns the contents stored in the collection by its key
(`nil`, i.e. `none`, when the key is unknown). -/
def Collection.ItemByKey (c : Collection K V C) (k : K) : Option V :=
  match itemsLookup c.items k with
  | none => none
  | some contents => contents.contents

/-- The expression `c.items[key].contents` used in the search loop: a
missing key yields the zero value of the record, whose contents is `nil`. -/
def Collection.contentsOf (c : Collection K V C) (k : K) : Option V :=
  match itemsLookup c.items k with
  | some r => r.contents
  | none => none

/-- ItemsWithinDistance, restricted to the part owned by the repository:
given the cell union the external region coverer produced for the search
cap, look up `c.cells[cell.Level()][cell.Pos()]` for each covering cell and
append the contents of every key found.  (The polygon boundaries also
returned by the Go function are diagnostic output computed entirely by the
external geometry library and are not modelled.) -/
def Collection.ItemsWithinDistance (c : Collection K V C)
    (cover : List Nat) : List (Option V) :=
  cover.foldl
    (fun foundItems cell =>
      foundItems ++
        (c.cells (cellLevel cell) (cellPos cell)).map (fun k => c.contentsOf k))
    []

/-- Modelled from the spec: the repository's tests call
`Collection.GetItems(pageSize, startIndex)` but the file defining it is not
among the sources; per §4.1 it "returns a bounded slice of stored contents
for enumeration/pagination", with a `startIndex` at or beyond the number of
stored items yielding an empty result (not an error), and (§8) "at most
`pageSize` items".  Enumeration order is the model's item-record order (the
original iterates a Go map in unspecified order). -/
def Collection.GetItems (c : Collection K V C) (pageSize startIndex : Nat) :
    List (Option V) :=
  ((c.items.map (fun p => p.2.contents)).drop startIndex).take pageSize

/-- States reachable from `NewCollection` by the mutating API, for a fixed
geometry provider `lf`. -/
inductive Reachable (lf : C → C → Nat) : Collection K V C → Prop
  | new : Reachable lf NewCollection
  | set (c : Collection K V C) (k : K) (v : Option V) (lat lon : C) :
      Reachable lf c → Reachable lf (c.Set lf k v lat lon)
  | del (c : Collection K V C) (k : K) :
      Reachable lf c → Reachable lf (c.Delete k)

/-! ## Association-list (Go map) lemmas -/

theorem itemsLookup_eq_none_iff (items : List (K × CollectionContents V C))
    (k : K) : itemsLookup items k = none ↔ ∀ p ∈ items, p.1 ≠ k := by
  induction items with
  | nil => simp [itemsLookup]
  | cons a t ih =>
    by_cases h : a.1 = k
    · simp [itemsLookup, h]
    · simp [itemsLookup, h, ih]

theorem itemsLookup_store (items : List (K × CollectionContents V C))
    (k k2 : K) (r : CollectionContents V C) :
    itemsLookup (itemsStore items k r) k2
      = if k2 = k then some r else itemsLookup items k2 := by
  induction items with
  | nil =>
    simp only [itemsStore, itemsLookup]
    by_cases h : k2 = k
    · rw [if_pos h.symm, if_pos h]
    · rw [if_neg (Ne.symm h), if_neg h]
  | cons a t ih =>
    simp only [itemsStore]
    by_cases ha : a.1 = k
    · rw [if_pos ha]
      by_cases hk : k2 = k
      · subst hk
        simp [itemsLookup, ha]
      · have ha2 : ¬a.1 = k2 := by rw [ha]; exact Ne.symm hk
        simp [itemsLookup, Ne.symm hk, hk, ha2]
    · rw [if_neg ha]
      by_cases hk : k2 = k
      · subst hk
        simp [itemsLookup, ha, ih]
      · simp [itemsLookup, hk, ih]

theorem itemsLookup_erase_other (items : List (K × CollectionContents V C))
    (k k2 : K) (h : k2 ≠ k) :
    itemsLookup (itemsErase items k) k2 = itemsLookup items k2 := by
  induction items with
  | nil => rfl
  | cons a t ih =>
    simp only [itemsErase]
    by_cases ha : a.1 = k
    · have ha2 : ¬a.1 = k2 := by rw [ha]; exact Ne.symm h
      rw [if_pos ha]
      simp [itemsLookup, ha2]
    · rw [if_neg ha]
      simp [itemsLookup, ih]

theorem itemsLookup_not_mem (items : List (K × CollectionContents V C))
    (k : K) (h : k ∉ items.map Prod.fst) : itemsLookup items k = none := by
  rw [itemsLookup_eq_none_iff]
  intro p hp hpk
  exact h (hpk ▸ List.mem_map_of_mem Prod.fst hp)

theorem itemsLookup_erase_self (items : List (K × CollectionContents V C))
    (k : K) (hnd : (items.map Prod.fst).Nodup) :
    itemsLookup (itemsErase items k) k = none := by
  induction items with
  | nil => rfl
  | cons a t ih =>
    simp only [List.map_cons, List.nodup_cons] at hnd
    simp only [itemsErase]
    by_cases ha : a.1 = k
    · rw [if_pos ha]
      exact itemsLookup_not_mem t k (ha ▸ hnd.1)
    · rw [if_neg ha]
      simp only [itemsLookup, if_neg ha]
      exact ih hnd.2

theorem itemsErase_of_lookup_none (items : List (K × CollectionContents V C))
    (k : K) (h : itemsLookup items k = none) : itemsErase items k = items := by
  induction items with
  | nil => rfl
  | cons a t ih =>
    simp only [itemsLookup] at h
    by_cases ha : a.1 = k
    · rw [if_pos ha] at h
      exact absurd h (by simp)
    · rw [if_neg ha] at h
      simp only [itemsErase, if_neg ha]
      rw [ih h]

theorem map_fst_store_mem (items : List (K × CollectionContents V C))
    (k k2 : K) (r : CollectionContents V C) :
    k2 ∈ (itemsStore items k r).map Prod.fst
      ↔ k2 = k ∨ k2 ∈ items.map Prod.fst := by
  induction items with
  | nil => simp [itemsStore]
  | cons a t ih =>
    simp only [itemsStore]
    by_cases ha : a.1 = k
    · rw [if_pos ha]
      simp only [List.map_cons, List.mem_cons, ha]
      tauto
    · rw [if_neg ha]
      simp only [List.map_cons, List.mem_cons, ih]
      tauto

theorem map_fst_store_nodup (items : List (K × CollectionContents V C))
    (k : K) (r : CollectionContents V C)
    (hnd : (items.map Prod.fst).Nodup) :
    ((itemsStore items k r).map Prod.fst).Nodup := by
  induction items with
  | nil => simp [itemsStore]
  | cons a t ih =>
    simp only [List.map_cons, List.nodup_cons] at hnd
    simp only [itemsStore]
    by_cases ha : a.1 = k
    · rw [if_pos ha]
      simp only [List.map_cons, List.nodup_cons]
      exact ⟨ha ▸ hnd.1, hnd.2⟩
    · rw [if_neg ha]
      simp only [List.map_cons, List.nodup_cons]
      refine ⟨?_, ih hnd.2⟩
      intro hmem
      rcases (map_fst_store_mem t k a.1 r).mp hmem with h1 | h1
      · exact ha h1
      · exact hnd.1 h1

theorem itemsErase_sublist (items : List (K × CollectionContents V C))
    (k : K) : List.Sublist (itemsErase items k) items := by
  induction items with
  | nil => exact List.Sublist.refl _
  | cons a t ih =>
    simp only [itemsErase]
    by_cases ha : a.1 = k
    · rw [if_pos ha]
      exact List.sublist_cons_self a t
    · rw [if_neg ha]
      exact ih.cons₂ a

theorem map_fst_erase_nodup (items : List (K × CollectionContents V C))
    (k : K) (hnd : (items.map Prod.fst).Nodup) :
    ((itemsErase items k).map Prod.fst).Nodup :=
  ((itemsErase_sublist items k).map Prod.fst).nodup hnd

/-! ## Key-set (`insertKey` / `List.erase`) lemmas -/

theorem mem_insertKey {k k2 : K} {s : List K} :
    k2 ∈ insertKey k s ↔ k2 = k ∨ k2 ∈ s := by
  unfold insertKey
  by_cases h : k ∈ s
  · rw [if_pos h]
    constructor
    · exact Or.inr
    · rintro (rfl | h2)
      · exact h
      · exact h2
  · rw [if_neg h]
    simp [or_comm]

theorem self_mem_insertKey (k : K) (s : List K) : k ∈ insertKey k s :=
  mem_insertKey.mpr (Or.inl rfl)

theorem nodup_insertKey (k : K) {s : List K} (h : s.Nodup) :
    (insertKey k s).Nodup := by
  unfold insertKey
  by_cases hm : k ∈ s
  · rw [if_pos hm]; exact h
  · rw [if_neg hm]
    simp [List.nodup_append, h, hm]

theorem insertKey_idem (k : K) (s : List K) :
    insertKey k (insertKey k s) = insertKey k s := by
  unfold insertKey
  by_cases h : k ∈ s
  · simp [h]
  · simp [h]

/-! ## Characterization of the `cells` folds -/

theorem mem_levelsList {l : Nat} : l ∈ levelsList ↔ l ≤ maxCellLevel := by
  simp [levelsList, Nat.lt_succ_iff]

theorem foldl_insert_apply (k : K) (leaf : Nat) :
    ∀ (ls : List Nat) (cs : Nat → Nat → List K) (l p : Nat),
      (ls.foldl
        (fun acc level => updateCells acc level (ancPos leaf level) (insertKey k))
        cs) l p
        = if l ∈ ls ∧ p = ancPos leaf l then insertKey k (cs l p)
          else cs l p := by
  intro ls
  induction ls with
  | nil => intro cs l p; simp
  | cons a t ih =>
    intro cs l p
    rw [List.foldl_cons, ih]
    by_cases hla : l = a
    · subst hla
      by_cases hp : p = ancPos leaf l
      · subst hp
        by_cases hlt : l ∈ t
        · simp [hlt, updateCells, insertKey_idem]
        · simp [hlt, updateCells]
      · simp [hp, updateCells]
    · have hup : updateCells cs a (ancPos leaf a) (insertKey k) l p = cs l p := by
        simp [updateCells, hla]
      rw [hup]
      by_cases hlt : l ∈ t ∧ p = ancPos leaf l
      · simp [hlt.1, hlt.2]
      · rw [if_neg hlt, if_neg]
        rintro ⟨hmem, hpp⟩
        rcases List.mem_cons.mp hmem with h1 | h1
        · exact hla h1
        · exact hlt ⟨h1, hpp⟩

theorem addCells_apply (k : K) (leaf : Nat) (cs : Nat → Nat → List K)
    (l p : Nat) :
    addCells k leaf cs l p
      = if l ≤ maxCellLevel ∧ p = ancPos leaf l then insertKey k (cs l p)
        else cs l p := by
  rw [addCells, foldl_insert_apply]
  by_cases h : l ∈ levelsList ∧ p = ancPos leaf l
  · rw [if_pos h, if_pos ⟨mem_levelsList.mp h.1, h.2⟩]
  · rw [if_neg h, if_neg]
    rintro ⟨h1, h2⟩
    exact h ⟨mem_levelsList.mpr h1, h2⟩

theorem removeCells_cons (k : K) (a : ItemIndex) (t : List ItemIndex)
    (cs : Nat → Nat → List K) :
    removeCells k (a :: t) cs
      = removeCells k t
          (updateCells cs a.cellLevel a.cellPosition (fun s => s.erase k)) :=
  rfl

theorem mem_of_mem_removeCells (k : K) :
    ∀ (idxs : List ItemIndex) (cs : Nat → Nat → List K) (l p : Nat) (k2 : K),
      k2 ∈ removeCells k idxs cs l p → k2 ∈ cs l p := by
  intro idxs
  induction idxs with
  | nil => intro cs l p k2 h; exact h
  | cons a t ih =>
    intro cs l p k2 h
    rw [removeCells_cons] at h
    have h2 := ih _ l p k2 h
    by_cases hs : l = a.cellLevel ∧ p = a.cellPosition
    · rw [updateCells, if_pos hs] at h2
      exact (List.erase_sublist _ _).mem h2
    · rwa [updateCells, if_neg hs] at h2

theorem mem_removeCells_of_ne (k k2 : K) (hne : k2 ≠ k) :
    ∀ (idxs : List ItemIndex) (cs : Nat → Nat → List K) (l p : Nat),
      k2 ∈ removeCells k idxs cs l p ↔ k2 ∈ cs l p := by
  intro idxs
  induction idxs with
  | nil => intro cs l p; exact Iff.rfl
  | cons a t ih =>
    intro cs l p
    rw [removeCells_cons]
    rw [ih]
    by_cases hs : l = a.cellLevel ∧ p = a.cellPosition
    · rw [updateCells, if_pos hs]
      exact List.mem_erase_of_ne hne
    · rw [updateCells, if_neg hs]

theorem removeCells_untouched (k : K) :
    ∀ (idxs : List ItemIndex) (cs : Nat → Nat → List K) (l p : Nat),
      (∀ idx ∈ idxs, ¬(idx.cellLevel = l ∧ idx.cellPosition = p)) →
      removeCells k idxs cs l p = cs l p := by
  intro idxs
  induction idxs with
  | nil => intro cs l p _; rfl
  | cons a t ih =>
    intro cs l p h
    rw [removeCells_cons]
    rw [ih _ l p (fun idx hidx => h idx (List.mem_cons_of_mem a hidx))]
    rw [updateCells, if_neg]
    rintro ⟨h1, h2⟩
    exact h a (List.mem_cons_self a t) ⟨h1.symm, h2.symm⟩

theorem nodup_removeCells (k : K) :
    ∀ (idxs : List ItemIndex) (cs : Nat → Nat → List K),
      (∀ l p, (cs l p).Nodup) → ∀ l p, (removeCells k idxs cs l p).Nodup := by
  intro idxs
  induction idxs with
  | nil => intro cs h l p; exact h l p
  | cons a t ih =>
    intro cs h l p
    rw [removeCells_cons]
    apply ih
    intro l2 p2
    rw [updateCells]
    by_cases hs : l2 = a.cellLevel ∧ p2 = a.cellPosition
    · rw [if_pos hs]
      exact (h l2 p2).erase k
    · rw [if_neg hs]
      exact h l2 p2

theorem not_mem_removeCells (k : K) :
    ∀ (idxs : List ItemIndex) (cs : Nat → Nat → List K) (l p : Nat),
      (∀ l2 p2, (cs l2 p2).Nodup) →
      (∃ idx ∈ idxs, idx.cellLevel = l ∧ idx.cellPosition = p) →
      k ∉ removeCells k idxs cs l p := by
  intro idxs
  induction idxs with
  | nil => intro cs l p _ h; simp at h
  | cons a t ih =>
    intro cs l p hnd h
    rw [removeCells_cons]
    have hnd2 : ∀ l2 p2,
        ((updateCells cs a.cellLevel a.cellPosition (fun s => s.erase k)) l2 p2).Nodup := by
      intro l2 p2
      rw [updateCells]
      by_cases hs : l2 = a.cellLevel ∧ p2 = a.cellPosition
      · rw [if_pos hs]; exact (hnd l2 p2).erase k
      · rw [if_neg hs]; exact hnd l2 p2
    obtain ⟨idx, hidx, h1, h2⟩ := h
    rcases List.mem_cons.mp hidx with rfl | hmem
    · intro hcon
      have := mem_of_mem_removeCells k t _ l p k hcon
      rw [updateCells, if_pos ⟨h1.symm, h2.symm⟩] at this
      exact ((hnd l p).mem_erase_iff.mp this).1 rfl
    · exact ih _ l p hnd2 ⟨idx, hmem, h1, h2⟩

/-! ## Unfolding lemmas for the operations -/

theorem delete_of_keys_none (c : Collection K V C) (k : K)
    (h : c.keys k = none) :
    c.delete k = { c with items := itemsErase c.items k } := by
  unfold Collection.delete
  rw [h]

theorem delete_of_keys_some (c : Collection K V C) (k : K)
    (idxs : List ItemIndex) (h : c.keys k = some idxs) :
    c.delete k
      = { items := itemsErase c.items k
          keys := fun k2 => if k2 = k then none else c.keys k2
          cells := removeCells k idxs c.cells } := by
  unfold Collection.delete
  rw [h]

theorem set_of_same_location (c : Collection K V C) (lf : C → C → Nat)
    (k : K) (v : Option V) (lat lon : C) (r : CollectionContents V C)
    (hk : itemsLookup c.items k = some r)
    (hlat : r.latitude = lat) (hlon : r.longitude = lon) :
    c.Set lf k v lat lon
      = { c with items := itemsStore c.items k ⟨v, lat, lon⟩ } := by
  unfold Collection.Set
  rw [hk]
  exact if_pos ⟨hlat, hlon⟩

theorem set_of_new_key (c : Collection K V C) (lf : C → C → Nat) (k : K)
    (v : Option V) (lat lon : C) (hk : itemsLookup c.items k = none) :
    c.Set lf k v lat lon = c.setIndexed lf k ⟨v, lat, lon⟩ := by
  unfold Collection.Set
  rw [hk]

theorem set_of_moved (c : Collection K V C) (lf : C → C → Nat) (k : K)
    (v : Option V) (lat lon : C) (r : CollectionContents V C)
    (hk : itemsLookup c.items k = some r)
    (hne : ¬(r.latitude = lat ∧ r.longitude = lon)) :
    c.Set lf k v lat lon = c.setIndexed lf k ⟨v, lat, lon⟩ := by
  unfold Collection.Set
  rw [hk]
  exact if_neg hne

theorem setIndexed_items (c : Collection K V C) (lf : C → C → Nat) (k : K)
    (nc : CollectionContents V C) :
    (c.setIndexed lf k nc).items = itemsStore (c.delete k).items k nc := rfl

theorem setIndexed_keys (c : Collection K V C) (lf : C → C → Nat) (k : K)
    (nc : CollectionContents V C) (k2 : K) :
    (c.setIndexed lf k nc).keys k2
      = if k2 = k then some (indexList (lf nc.latitude nc.longitude))
        else (c.delete k).keys k2 := rfl

theorem setIndexed_cells (c : Collection K V C) (lf : C → C → Nat) (k : K)
    (nc : CollectionContents V C) :
    (c.setIndexed lf k nc).cells
      = addCells k (lf nc.latitude nc.longitude) (c.delete k).cells := rfl

theorem delete_items (c : Collection K V C) (k : K) :
    (c.delete k).items = itemsErase c.items k := by
  unfold Collection.delete
  cases c.keys k <;> rfl

/-! ## The index invariant -/

/-- CollectionInv packages the consistency invariants I1 through I4 of the spec's data
model, relative to the geometry provider `lf`: item records and reverse
index are synchronized; a stored key's reverse-index list is exactly the
32-entry-free list of its leaf's `(ancestorPosition, level)` pairs for
levels 30 down to 0; the cell index contains a key exactly in the slots of
its leaf's ancestors; all key sets and the record keys are duplicate-free. -/
structure CollectionInv (lf : C → C → Nat) (c : Collection K V C) : Prop where
  sync : ∀ k : K, itemsLookup c.items k = none ↔ c.keys k = none
  keysEq : ∀ (k : K) (r : CollectionContents V C),
    itemsLookup c.items k = some r →
    c.keys k = some (indexList (lf r.latitude r.longitude))
  cellsSound : ∀ (k : K) (level pos : Nat), k ∈ c.cells level pos →
    ∃ r, itemsLookup c.items k = some r ∧ level ≤ maxCellLevel ∧
      pos = ancPos (lf r.latitude r.longitude) level
  cellsComplete : ∀ (k : K) (r : CollectionContents V C),
    itemsLookup c.items k = some r → ∀ level ≤ maxCellLevel,
    k ∈ c.cells level (ancPos (lf r.latitude r.longitude) level)
  cellsNodup : ∀ level pos : Nat, (c.cells level pos).Nodup
  itemsNodup : (c.items.map Prod.fst).Nodup

theorem inv_new (lf : C → C → Nat) : CollectionInv lf (NewCollection : Collection K V C) where
  sync _ := by simp [NewCollection, itemsLookup]
  keysEq k r h := by simp [NewCollection, itemsLookup] at h
  cellsSound k level pos h := by simp [NewCollection] at h
  cellsComplete k r h := by simp [NewCollection, itemsLookup] at h
  cellsNodup _ _ := List.nodup_nil
  itemsNodup := List.nodup_nil

/-- After `delete`, the key's record, reverse index and every cell-index
occurrence are gone, and nothing belonging to other keys changed. -/
theorem delete_spec (lf : C → C → Nat) (c : Collection K V C) (k : K)
    (hinv : CollectionInv lf c) :
    itemsLookup (c.delete k).items k = none ∧
    (c.delete k).keys k = none ∧
    (∀ level pos, k ∉ (c.delete k).cells level pos) ∧
    (∀ k2, k2 ≠ k →
      itemsLookup (c.delete k).items k2 = itemsLookup c.items k2) ∧
    (∀ k2, k2 ≠ k → (c.delete k).keys k2 = c.keys k2) ∧
    (∀ k2, k2 ≠ k → ∀ level pos,
      (k2 ∈ (c.delete k).cells level pos ↔ k2 ∈ c.cells level pos)) := by
  cases hks : c.keys k with
  | none =>
    have hlk : itemsLookup c.items k = none := (hinv.sync k).mpr hks
    rw [delete_of_keys_none c k hks]
    refine ⟨?_, hks, ?_, ?_, fun _ _ => rfl, fun _ _ _ _ => Iff.rfl⟩
    · rw [itemsErase_of_lookup_none c.items k hlk]
      exact hlk
    · intro level pos hmem
      obtain ⟨r, hr, -⟩ := hinv.cellsSound k level pos hmem
      rw [hlk] at hr
      exact Option.noConfusion hr
    · intro k2 hne
      exact itemsLookup_erase_other c.items k k2 hne
  | some idxs =>
    have hlk : ¬itemsLookup c.items k = none := by
      intro h0
      rw [(hinv.sync k).mp h0] at hks
      exact Option.noConfusion hks
    obtain ⟨r, hr⟩ := Option.ne_none_iff_exists'.mp hlk
    have hidxs : idxs = indexList (lf r.latitude r.longitude) := by
      have := hinv.keysEq k r hr
      rw [hks] at this
      exact Option.some_inj.mp this
    rw [delete_of_keys_some c k idxs hks]
    refine ⟨?_, by simp, ?_, ?_, ?_, ?_⟩
    · exact itemsLookup_erase_self c.items k hinv.itemsNodup
    · intro level pos hmem
      have hsub := mem_of_mem_removeCells k idxs c.cells level pos k hmem
      obtain ⟨r2, hr2, hlev, hpos⟩ := hinv.cellsSound k level pos hsub
      have hr2r : r2 = r := by
        rw [hr] at hr2
        exact (Option.some_inj.mp hr2).symm
      subst hr2r
      revert hmem
      apply not_mem_removeCells k idxs c.cells level pos hinv.cellsNodup
      refine ⟨⟨ancPos (lf r2.latitude r2.longitude) level, level⟩, ?_, rfl, hpos.symm⟩
      rw [hidxs]
      unfold indexList
      exact List.mem_map_of_mem _ (mem_levelsList.mpr hlev)
    · intro k2 hne
      exact itemsLookup_erase_other c.items k k2 hne
    · intro k2 hne
      simp [hne]
    · intro k2 hne level pos
      exact mem_removeCells_of_ne k k2 hne idxs c.cells level pos

/-- `delete` preserves the invariant. -/
theorem inv_delete (lf : C → C → Nat) (c : Collection K V C) (k : K)
    (hinv : CollectionInv lf c) : CollectionInv lf (c.delete k) := by
  obtain ⟨h1, h2, h3, h4, h5, h6⟩ := delete_spec lf c k hinv
  refine ⟨?_, ?_, ?_, ?_, ?_, ?_⟩
  · intro k2
    by_cases hne : k2 = k
    · subst hne
      simp [h1, h2]
    · rw [h4 k2 hne, h5 k2 hne]
      exact hinv.sync k2
  · intro k2 r hr
    by_cases hne : k2 = k
    · subst hne
      rw [h1] at hr
      exact Option.noConfusion hr
    · rw [h4 k2 hne] at hr
      rw [h5 k2 hne]
      exact hinv.keysEq k2 r hr
  · intro k2 level pos hmem
    by_cases hne : k2 = k
    · subst hne
      exact absurd hmem (h3 level pos)
    · rw [h6 k2 hne level pos] at hmem
      obtain ⟨r, hr, hlev, hpos⟩ := hinv.cellsSound k2 level pos hmem
      exact ⟨r, (h4 k2 hne).symm ▸ hr, hlev, hpos⟩
  · intro k2 r hr level hlev
    by_cases hne : k2 = k
    · subst hne
      rw [h1] at hr
      exact Option.noConfusion hr
    · rw [h4 k2 hne] at hr
      rw [h6 k2 hne]
      exact hinv.cellsComplete k2 r hr level hlev
  · cases hks : c.keys k with
    | none =>
      rw [delete_of_keys_none c k hks]
      exact hinv.cellsNodup
    | some idxs =>
      rw [delete_of_keys_some c k idxs hks]
      exact nodup_removeCells k idxs c.cells hinv.cellsNodup
  · rw [delete_items]
    exact map_fst_erase_nodup c.items k hinv.itemsNodup

/-- The record stored by `Set` is always the new contents/location. -/
theorem set_lookup_self (c : Collection K V C) (lf : C → C → Nat) (k : K)
    (v : Option V) (lat lon : C) :
    itemsLookup (c.Set lf k v lat lon).items k = some ⟨v, lat, lon⟩ := by
  cases hlk : itemsLookup c.items k with
  | none =>
    rw [set_of_new_key _ _ _ _ _ _ hlk, setIndexed_items, itemsLookup_store]
    simp
  | some r =>
    by_cases hsame : r.latitude = lat ∧ r.longitude = lon
    · rw [set_of_same_location _ _ _ _ _ _ r hlk hsame.1 hsame.2]
      show itemsLookup (itemsStore c.items k _) k = _
      rw [itemsLookup_store]
      simp
    · rw [set_of_moved _ _ _ _ _ _ r hlk hsame, setIndexed_items,
        itemsLookup_store]
      simp

/-- `Set` leaves the records of other keys unchanged. -/
theorem set_lookup_other (c : Collection K V C) (lf : C → C → Nat) (k : K)
    (v : Option V) (lat lon : C) (k2 : K) (hne : k2 ≠ k) :
    itemsLookup (c.Set lf k v lat lon).items k2 = itemsLookup c.items k2 := by
  have hd : itemsLookup (c.delete k).items k2 = itemsLookup c.items k2 := by
    rw [delete_items]
    exact itemsLookup_erase_other c.items k k2 hne
  cases hlk : itemsLookup c.items k with
  | none =>
    rw [set_of_new_key _ _ _ _ _ _ hlk, setIndexed_items, itemsLookup_store,
      if_neg hne, hd]
  | some r =>
    by_cases hsame : r.latitude = lat ∧ r.longitude = lon
    · rw [set_of_same_location _ _ _ _ _ _ r hlk hsame.1 hsame.2]
      show itemsLookup (itemsStore c.items k _) k2 = _
      rw [itemsLookup_store, if_neg hne]
    · rw [set_of_moved _ _ _ _ _ _ r hlk hsame, setIndexed_items,
        itemsLookup_store, if_neg hne, hd]

/-- The reindexing path establishes the invariant for any incoming state
that satisfies it. -/
theorem inv_setIndexed (lf : C → C → Nat) (c : Collection K V C) (k : K)
    (nc : CollectionContents V C) (hinv : CollectionInv lf c) :
    CollectionInv lf (c.setIndexed lf k nc) := by
  obtain ⟨hdelLk, hdelKeys, hdelCells, -, -, -⟩ := delete_spec lf c k hinv
  have hd := inv_delete lf c k hinv
  refine ⟨?_, ?_, ?_, ?_, ?_, ?_⟩
  · intro k2
    rw [setIndexed_items, setIndexed_keys, itemsLookup_store]
    by_cases hne : k2 = k
    · simp [hne]
    · rw [if_neg hne, if_neg hne]
      exact hd.sync k2
  · intro k2 r hr
    rw [setIndexed_items, itemsLookup_store] at hr
    rw [setIndexed_keys]
    by_cases hne : k2 = k
    · rw [if_pos hne] at hr
      rw [if_pos hne]
      cases Option.some_inj.mp hr
      rfl
    · rw [if_neg hne] at hr
      rw [if_neg hne]
      exact hd.keysEq k2 r hr
  · intro k2 level pos hmem
    rw [setIndexed_cells, addCells_apply] at hmem
    rw [setIndexed_items]
    by_cases hcond : level ≤ maxCellLevel ∧ pos = ancPos (lf nc.latitude nc.longitude) level
    · rw [if_pos hcond] at hmem
      rcases mem_insertKey.mp hmem with rfl | hmem2
      · exact ⟨nc, by rw [itemsLookup_store, if_pos rfl], hcond.1, hcond.2⟩
      · obtain ⟨r, hr, hlev, hpos⟩ := hd.cellsSound k2 level pos hmem2
        have hne : k2 ≠ k := by
          rintro rfl
          rw [hdelLk] at hr
          exact Option.noConfusion hr
        exact ⟨r, by rw [itemsLookup_store, if_neg hne]; exact hr, hlev, hpos⟩
    · rw [if_neg hcond] at hmem
      obtain ⟨r, hr, hlev, hpos⟩ := hd.cellsSound k2 level pos hmem
      have hne : k2 ≠ k := by
        rintro rfl
        rw [hdelLk] at hr
        exact Option.noConfusion hr
      exact ⟨r, by rw [itemsLookup_store, if_neg hne]; exact hr, hlev, hpos⟩
  · intro k2 r hr level hlev
    rw [setIndexed_items, itemsLookup_store] at hr
    rw [setIndexed_cells, addCells_apply]
    by_cases hne : k2 = k
    · subst hne
      rw [if_pos rfl] at hr
      cases Option.some_inj.mp hr
      rw [if_pos ⟨hlev, rfl⟩]
      exact self_mem_insertKey _ _
    · rw [if_neg hne] at hr
      have hmem := hd.cellsComplete k2 r hr level hlev
      by_cases hcond : level ≤ maxCellLevel ∧
          ancPos (lf r.latitude r.longitude) level
            = ancPos (lf nc.latitude nc.longitude) level
      · rw [hcond.2, if_pos ⟨hlev, rfl⟩]
        exact mem_insertKey.mpr (Or.inr (hcond.2 ▸ hmem))
      · rw [if_neg (fun hc => hcond ⟨hlev, hc.2⟩)]
        exact hmem
  · intro level pos
    rw [setIndexed_cells, addCells_apply]
    by_cases hcond : level ≤ maxCellLevel ∧ pos = ancPos (lf nc.latitude nc.longitude) level
    · rw [if_pos hcond]
      exact nodup_insertKey _ (hd.cellsNodup level pos)
    · rw [if_neg hcond]
      exact hd.cellsNodup level pos
  · rw [setIndexed_items]
    exact map_fst_store_nodup _ k nc hd.itemsNodup

/-- The contents-only update path preserves the invariant. -/
theorem inv_set_sameLocation (lf : C → C → Nat) (c : Collection K V C)
    (k : K) (v : Option V) (lat lon : C) (r : CollectionContents V C)
    (hinv : CollectionInv lf c) (hlk : itemsLookup c.items k = some r)
    (hla : r.latitude = lat) (hlo : r.longitude = lon) :
    CollectionInv lf { c with items := itemsStore c.items k ⟨v, lat, lon⟩ } := by
  have hlf : lf lat lon = lf r.latitude r.longitude := by rw [hla, hlo]
  refine ⟨?_, ?_, ?_, ?_, hinv.cellsNodup, ?_⟩
  · intro k2
    show itemsLookup (itemsStore c.items k _) k2 = none ↔ c.keys k2 = none
    rw [itemsLookup_store]
    by_cases hne : k2 = k
    · subst hne
      have := hinv.keysEq k2 r hlk
      simp [this]
    · rw [if_neg hne]
      exact hinv.sync k2
  · intro k2 r2 hr2
    show c.keys k2 = _
    rw [show ({ c with items := itemsStore c.items k ⟨v, lat, lon⟩ } :
        Collection K V C).items = itemsStore c.items k ⟨v, lat, lon⟩ from rfl,
      itemsLookup_store] at hr2
    by_cases hne : k2 = k
    · subst hne
      rw [if_pos rfl] at hr2
      cases Option.some_inj.mp hr2
      rw [hinv.keysEq k2 r hlk]
      show _ = some (indexList (lf lat lon))
      rw [hlf]
    · rw [if_neg hne] at hr2
      exact hinv.keysEq k2 r2 hr2
  · intro k2 level pos hmem
    show ∃ r2, itemsLookup (itemsStore c.items k _) k2 = some r2 ∧ _
    obtain ⟨r2, hr2, hlev, hpos⟩ := hinv.cellsSound k2 level pos hmem
    rw [itemsLookup_store]
    by_cases hne : k2 = k
    · subst hne
      rw [hlk] at hr2
      cases Option.some_inj.mp hr2
      refine ⟨⟨v, lat, lon⟩, by rw [if_pos rfl], hlev, ?_⟩
      show pos = ancPos (lf lat lon) level
      rw [hlf]
      exact hpos
    · exact ⟨r2, by rw [if_neg hne]; exact hr2, hlev, hpos⟩
  · intro k2 r2 hr2 level hlev
    rw [show ({ c with items := itemsStore c.items k ⟨v, lat, lon⟩ } :
        Collection K V C).items = itemsStore c.items k ⟨v, lat, lon⟩ from rfl,
      itemsLookup_store] at hr2
    show k2 ∈ c.cells level _
    by_cases hne : k2 = k
    · subst hne
      rw [if_pos rfl] at hr2
      cases Option.some_inj.mp hr2
      show k2 ∈ c.cells level (ancPos (lf lat lon) level)
      rw [hlf]
      exact hinv.cellsComplete k2 r hlk level hlev
    · rw [if_neg hne] at hr2
      exact hinv.cellsComplete k2 r2 hr2 level hlev
  · show ((itemsStore c.items k _).map Prod.fst).Nodup
    exact map_fst_store_nodup _ k _ hinv.itemsNodup

/-- `Set` preserves the invariant. -/
theorem inv_set (lf : C → C → Nat) (c : Collection K V C) (k : K)
    (v : Option V) (lat lon : C) (hinv : CollectionInv lf c) :
    CollectionInv lf (c.Set lf k v lat lon) := by
  cases hlk : itemsLookup c.items k with
  | none =>
    rw [set_of_new_key c lf k v lat lon hlk]
    exact inv_setIndexed lf c k _ hinv
  | some r =>
    by_cases hsame : r.latitude = lat ∧ r.longitude = lon
    · rw [set_of_same_location c lf k v lat lon r hlk hsame.1 hsame.2]
      exact inv_set_sameLocation lf c k v lat lon r hinv hlk hsame.1 hsame.2
    · rw [set_of_moved c lf k v lat lon r hlk hsame]
      exact inv_setIndexed lf c k _ hinv

/-- Every state reachable through the public mutating API satisfies the
index invariant. -/
theorem inv_reachable (lf : C → C → Nat) (c : Collection K V C)
    (h : Reachable lf c) : CollectionInv lf c := by
  induction h with
  | new => exact inv_new lf
  | set c k v lat lon _ ih => exact inv_set lf c k v lat lon ih
  | del c k _ ih => exact inv_delete lf c k ih

/-! ## Search-result helpers -/

theorem foldl_append_eq_bind {α β : Type} (f : α → List β) :
    ∀ (l : List α) (init : List β),
      l.foldl (fun acc x => acc ++ f x) init = init ++ l.flatMap f := by
  intro l
  induction l with
  | nil => intro init; simp
  | cons a t ih =>
    intro init
    rw [List.foldl_cons, ih, List.flatMap_cons, List.append_assoc]

theorem itemsWithinDistance_eq_bind (c : Collection K V C)
    (cover : List Nat) :
    c.ItemsWithinDistance cover
      = cover.flatMap (fun cid =>
          (c.cells (cellLevel cid) (cellPos cid)).map (fun k => c.contentsOf k)) := by
  unfold Collection.ItemsWithinDistance
  rw [foldl_append_eq_bind]
  rfl

theorem contentsOf_mem_itemsWithinDistance (c : Collection K V C)
    (cover : List Nat) (cid : Nat) (k : K) (hcid : cid ∈ cover)
    (hk : k ∈ c.cells (cellLevel cid) (cellPos cid)) :
    c.contentsOf k ∈ c.ItemsWithinDistance cover := by
  rw [itemsWithinDistance_eq_bind]
  exact List.mem_flatMap.mpr ⟨cid, hcid, List.mem_map_of_mem _ hk⟩

/-- keyHits counts how many times the search loop appends key `k`'s
contents for the given covering: the sum over covering cells of `k`'s
multiplicity in the probed slot. -/
def keyHits (c : Collection K V C) (cover : List Nat) (k : K) : Nat :=
  (cover.map (fun cid => (c.cells (cellLevel cid) (cellPos cid)).count k)).sum

/-! ## Concrete instances used by the closed-form witnesses -/

/-- A concrete geometry provider for witnesses: every coordinate pair maps
to the s2 leaf cell id of downtown Chicago (token `880e2cbc904a0c29`, a
face-4 leaf cell; determinism is all the collection code relies on). -/
def lfChicago : Int → Int → Nat := fun _ _ => 0x880e2cbc904a0c29

/-- A one-item collection: key 0 with contents 7 stored at coordinates
(0, 0). -/
def oneItem : Collection Nat Nat Int :=
  (NewCollection : Collection Nat Nat Int).Set lfChicago 0 (some 7) 0 0

/-! ## The claims -/

/-- C1: Radius-search superset guarantee.  For every reachable collection
state and stored item, and for every covering that honours the geometry
provider's contract for the search cap — every point within the query
radius lies in some covering cell, i.e. that cell is the ancestor at its
own level of the point's leaf cell — an item within the radius has its
contents in the list returned by `ItemsWithinDistance`.  `withinDist lat
lon` abstracts "true great-circle distance from (lat, lon) to the query
point is at most distanceMeters", which is computed by the external
geometry library. -/
theorem radius_search_superset (lf : C → C → Nat) (c : Collection K V C)
    (hreach : Reachable lf c) (k : K) (r : CollectionContents V C)
    (hk : itemsLookup c.items k = some r)
    (withinDist : C → C → Prop) (cover : List Nat)
    (hcover : ∀ lat lon, withinDist lat lon →
      ∃ cid ∈ cover, parentCell (lf lat lon) (cellLevel cid) = cid)
    (hin : withinDist r.latitude r.longitude) :
    r.contents ∈ c.ItemsWithinDistance cover := by
  obtain ⟨cid, hcid, hanc⟩ := hcover r.latitude r.longitude hin
  have hinv := inv_reachable lf c hreach
  have hmem : k ∈ c.cells (cellLevel cid) (cellPos cid) := by
    have h2 := hinv.cellsComplete k r hk (cellLevel cid) (cellLevel_le cid)
    rwa [show ancPos (lf r.latitude r.longitude) (cellLevel cid) = cellPos cid by
      rw [ancPos, hanc]] at h2
  have hco : c.contentsOf k = r.contents := by
    unfold Collection.contentsOf
    rw [hk]
  exact hco ▸ contentsOf_mem_itemsWithinDistance c cover cid k hcid hmem

theorem radius_search_superset_witness :
    itemsLookup oneItem.items 0 = some ⟨some 7, 0, 0⟩ ∧
    (some 7 : Option Nat)
      ∈ oneItem.ItemsWithinDistance [parentCell 0x880e2cbc904a0c29 5] :=
  ⟨by decide,
    radius_search_superset lfChicago oneItem
      (Reachable.set NewCollection 0 (some 7) 0 0 Reachable.new)
      0 ⟨some 7, 0, 0⟩ (by decide) (fun _ _ => True)
      [parentCell 0x880e2cbc904a0c29 5]
      (fun lat lon _ =>
        ⟨parentCell 0x880e2cbc904a0c29 5, by decide, by
          show parentCell 0x880e2cbc904a0c29
              (cellLevel (parentCell 0x880e2cbc904a0c29 5))
            = parentCell 0x880e2cbc904a0c29 5
          decide⟩)
      trivial⟩

/-- C2: Index-completeness invariant.  After any sequence of `Set` and
`Delete` operations, every key present in the item-record map has a
reverse-index list of exactly `maxCellLevel + 1 = 31` entries, one per
level (the levels are exactly `30, ..., 0`), and each entry's position is
the within-face position of the ancestor at that level of the leaf cell of
the item's stored location, with the cell index at that slot containing
the key. -/
theorem index_completeness (lf : C → C → Nat) (c : Collection K V C)
    (hreach : Reachable lf c) (k : K) (r : CollectionContents V C)
    (hk : itemsLookup c.items k = some r) :
    ∃ idxs, c.keys k = some idxs ∧
      idxs.length = maxCellLevel + 1 ∧
      idxs.map ItemIndex.cellLevel = levelsList ∧
      ∀ idx ∈ idxs,
        idx.cellPosition = ancPos (lf r.latitude r.longitude) idx.cellLevel ∧
        k ∈ c.cells idx.cellLevel idx.cellPosition := by
  have hinv := inv_reachable lf c hreach
  refine ⟨indexList (lf r.latitude r.longitude), hinv.keysEq k r hk, ?_, ?_, ?_⟩
  · simp [indexList, levelsList]
  · have hcomp : (ItemIndex.cellLevel ∘ fun level =>
        (⟨ancPos (lf r.latitude r.longitude) level, level⟩ : ItemIndex)) = id := rfl
    rw [indexList, List.map_map, hcomp, List.map_id]
  · intro idx hidx
    obtain ⟨level, hlev, rfl⟩ := List.mem_map.mp hidx
    exact ⟨rfl, hinv.cellsComplete k r hk level (mem_levelsList.mp hlev)⟩

theorem index_completeness_witness :
    itemsLookup oneItem.items 0 = some ⟨some 7, 0, 0⟩ ∧
    ∃ idxs, oneItem.keys 0 = some idxs ∧
      idxs.length = maxCellLevel + 1 ∧
      idxs.map ItemIndex.cellLevel = levelsList ∧
      ∀ idx ∈ idxs,
        idx.cellPosition = ancPos (lfChicago 0 0) idx.cellLevel ∧
        0 ∈ oneItem.cells idx.cellLevel idx.cellPosition :=
  ⟨by decide,
    index_completeness lfChicago oneItem
      (Reachable.set NewCollection 0 (some 7) 0 0 Reachable.new)
      0 ⟨some 7, 0, 0⟩ (by decide)⟩

/-- C3: Relocation replace semantics.  From any reachable state, after
`Set(k, v, lat1, lon1)` followed by `Set(k, v, lat2, lon2)` with a
different location, the cell index contains `k` exactly at the ancestor
slots of `(lat2, lon2)`'s leaf cell (so no residual entry from
`(lat1, lon1)` unless it is also an ancestor slot of the new leaf), and
the reverse index for `k` lists exactly `(lat2, lon2)`'s cells. -/
theorem relocation_replaces_index (lf : C → C → Nat) (c : Collection K V C)
    (hreach : Reachable lf c) (k : K) (v : Option V)
    (lat1 lon1 lat2 lon2 : C) (hne : ¬(lat1 = lat2 ∧ lon1 = lon2)) :
    (∀ level pos,
      k ∈ ((c.Set lf k v lat1 lon1).Set lf k v lat2 lon2).cells level pos
        ↔ (level ≤ maxCellLevel ∧ pos = ancPos (lf lat2 lon2) level)) ∧
    ((c.Set lf k v lat1 lon1).Set lf k v lat2 lon2).keys k
      = some (indexList (lf lat2 lon2)) := by
  have hreach2 : Reachable lf ((c.Set lf k v lat1 lon1).Set lf k v lat2 lon2) :=
    Reachable.set _ k v lat2 lon2 (Reachable.set c k v lat1 lon1 hreach)
  have hinv := inv_reachable lf _ hreach2
  have hk : itemsLookup ((c.Set lf k v lat1 lon1).Set lf k v lat2 lon2).items k
      = some ⟨v, lat2, lon2⟩ := set_lookup_self _ lf k v lat2 lon2
  constructor
  · intro level pos
    constructor
    · intro hmem
      obtain ⟨r, hr, hlev, hpos⟩ := hinv.cellsSound k level pos hmem
      rw [hk] at hr
      cases Option.some_inj.mp hr
      exact ⟨hlev, hpos⟩
    · rintro ⟨hlev, rfl⟩
      exact hinv.cellsComplete k ⟨v, lat2, lon2⟩ hk level hlev
  · exact hinv.keysEq k ⟨v, lat2, lon2⟩ hk

theorem relocation_replaces_index_witness :
    ¬((0 : Int) = 1 ∧ (0 : Int) = 1) ∧
    ((∀ level pos,
      0 ∈ (((NewCollection : Collection Nat Nat Int).Set lfChicago 0 (some 7) 0 0).Set
            lfChicago 0 (some 7) 1 1).cells level pos
        ↔ (level ≤ maxCellLevel ∧ pos = ancPos (lfChicago 1 1) level)) ∧
    (((NewCollection : Collection Nat Nat Int).Set lfChicago 0 (some 7) 0 0).Set
        lfChicago 0 (some 7) 1 1).keys 0
      = some (indexList (lfChicago 1 1))) :=
  ⟨by decide,
    relocation_replaces_index lfChicago NewCollection Reachable.new
      0 (some 7) 0 0 1 1 (by decide)⟩

/-- C4: Contents-only update frame.  When `Set` is called for a key whose
stored latitude and longitude exactly equal the new ones, only the item
record is replaced (with the new contents); the `cells` and `keys` fields
are left literally unchanged, and every other key's record is untouched. -/
theorem set_same_location_frame (c : Collection K V C) (lf : C → C → Nat)
    (k : K) (v : Option V) (lat lon : C) (r : CollectionContents V C)
    (hk : itemsLookup c.items k = some r)
    (hla : r.latitude = lat) (hlo : r.longitude = lon) :
    (c.Set lf k v lat lon).cells = c.cells ∧
    (c.Set lf k v lat lon).keys = c.keys ∧
    itemsLookup (c.Set lf k v lat lon).items k = some ⟨v, lat, lon⟩ ∧
    ∀ k2, k2 ≠ k →
      itemsLookup (c.Set lf k v lat lon).items k2 = itemsLookup c.items k2 := by
  rw [set_of_same_location c lf k v lat lon r hk hla hlo]
  refine ⟨rfl, rfl, ?_, ?_⟩
  · show itemsLookup (itemsStore c.items k ⟨v, lat, lon⟩) k = _
    rw [itemsLookup_store, if_pos rfl]
  · intro k2 h2
    show itemsLookup (itemsStore c.items k ⟨v, lat, lon⟩) k2 = _
    rw [itemsLookup_store, if_neg h2]

theorem set_same_location_frame_witness :
    itemsLookup oneItem.items 0 = some ⟨some 7, 0, 0⟩ ∧
    ((oneItem.Set lfChicago 0 (some 9) 0 0).cells = oneItem.cells ∧
    (oneItem.Set lfChicago 0 (some 9) 0 0).keys = oneItem.keys ∧
    itemsLookup (oneItem.Set lfChicago 0 (some 9) 0 0).items 0
      = some ⟨some 9, 0, 0⟩ ∧
    ∀ k2, k2 ≠ 0 →
      itemsLookup (oneItem.Set lfChicago 0 (some 9) 0 0).items k2
        = itemsLookup oneItem.items k2) :=
  ⟨by decide,
    set_same_location_frame oneItem lfChicago 0 (some 9) 0 0
      ⟨some 7, 0, 0⟩ (by decide) (by decide) (by decide)⟩

/-- C5: Idempotent delete of an absent key.  Deleting a key that is not
present in a reachable collection is a no-op: the resulting collection is
equal to the original (item records, reverse index, and every cell-index
set included). -/
theorem delete_absent_noop (lf : C → C → Nat) (c : Collection K V C)
    (hreach : Reachable lf c) (k : K)
    (hk : itemsLookup c.items k = none) :
    c.Delete k = c := by
  have hinv := inv_reachable lf c hreach
  have hkeys : c.keys k = none := (hinv.sync k).mp hk
  show c.delete k = c
  rw [delete_of_keys_none c k hkeys, itemsErase_of_lookup_none c.items k hk]

theorem delete_absent_noop_witness :
    itemsLookup oneItem.items 9 = none ∧ oneItem.Delete 9 = oneItem :=
  ⟨by decide,
    delete_absent_noop lfChicago oneItem
      (Reachable.set NewCollection 0 (some 7) 0 0 Reachable.new)
      9 (by decide)⟩

/-- C6 (counterexample): the claim "each stored key contributes its
contents at most once, because covering cells are disjoint" is false for
the code.  The s2 level-0 cells of face 0 (id `2 ^ 60`) and face 1 (id
`2 ^ 61 + 2 ^ 60`) are distinct, same-level, geometrically disjoint
covering cells, but `Pos()` strips the three face bits, so both probe the
same index slot `cells[0][2 ^ 60]`; a search over this two-cell covering
returns the single stored item's contents twice. -/
theorem search_double_count_counterexample :
    (2 ^ 60 : Nat) ≠ 2 ^ 61 + 2 ^ 60 ∧
    cellLevel (2 ^ 60) = 0 ∧ cellLevel (2 ^ 61 + 2 ^ 60) = 0 ∧
    cellPos (2 ^ 60) = cellPos (2 ^ 61 + 2 ^ 60) ∧
    oneItem.ItemsWithinDistance [2 ^ 60, 2 ^ 61 + 2 ^ 60]
      = [some 7, some 7] ∧
    keyHits oneItem [2 ^ 60, 2 ^ 61 + 2 ^ 60] 0 = 2 := by
  refine ⟨by decide, by decide, by decide, by decide, by decide, by decide⟩

/-- C6 (amended): in any reachable state, a stored key occurs at most once
in each probed slot (the per-cell sets are duplicate-free), and the number
of times the search loop appends the key's contents equals the number of
covering cells whose `(level, within-face position)` slot matches the
key's ancestor slot at that cell's level.  Disjointness of the covering
cells alone does not cap this at one, because the index discards the face
bits of a cell id; it is one per covering cell that matches. -/
theorem search_key_contribution (lf : C → C → Nat) (c : Collection K V C)
    (hreach : Reachable lf c) (k : K) (r : CollectionContents V C)
    (hk : itemsLookup c.items k = some r) (cover : List Nat) :
    (∀ cid ∈ cover, (c.cells (cellLevel cid) (cellPos cid)).count k ≤ 1) ∧
    keyHits c cover k
      = cover.countP (fun cid =>
          decide (cellPos cid
            = ancPos (lf r.latitude r.longitude) (cellLevel cid))) := by
  have hinv := inv_reachable lf c hreach
  have hcount : ∀ cid : Nat,
      (c.cells (cellLevel cid) (cellPos cid)).count k
        = if cellPos cid = ancPos (lf r.latitude r.longitude) (cellLevel cid)
          then 1 else 0 := by
    intro cid
    by_cases hmatch : cellPos cid
        = ancPos (lf r.latitude r.longitude) (cellLevel cid)
    · rw [if_pos hmatch]
      have hmem : k ∈ c.cells (cellLevel cid) (cellPos cid) := by
        rw [hmatch]
        exact hinv.cellsComplete k r hk (cellLevel cid) (cellLevel_le cid)
      exact List.count_eq_one_of_mem (hinv.cellsNodup _ _) hmem
    · rw [if_neg hmatch, List.count_eq_zero]
      intro hmem
      obtain ⟨r2, hr2, -, hpos⟩ :=
        hinv.cellsSound k (cellLevel cid) (cellPos cid) hmem
      rw [hk] at hr2
      cases Option.some_inj.mp hr2
      exact hmatch hpos
  refine ⟨fun cid _ => by rw [hcount cid]; split <;> omega, ?_⟩
  unfold keyHits
  induction cover with
  | nil => rfl
  | cons a t ih =>
    rw [List.map_cons, List.sum_cons, ih, List.countP_cons, hcount a]
    by_cases hmatch : cellPos a
        = ancPos (lf r.latitude r.longitude) (cellLevel a)
    · rw [if_pos hmatch, if_pos (show decide (cellPos a
          = ancPos (lf r.latitude r.longitude) (cellLevel a)) = true by
        simpa using hmatch)]
      omega
    · rw [if_neg hmatch, if_neg (show ¬decide (cellPos a
          = ancPos (lf r.latitude r.longitude) (cellLevel a)) = true by
        simpa using hmatch)]
      omega

theorem search_key_contribution_witness :
    itemsLookup oneItem.items 0 = some ⟨some 7, 0, 0⟩ ∧
    ((∀ cid ∈ [(2 ^ 60 : Nat), 2 ^ 61 + 2 ^ 60],
      (oneItem.cells (cellLevel cid) (cellPos cid)).count 0 ≤ 1) ∧
    keyHits oneItem [2 ^ 60, 2 ^ 61 + 2 ^ 60] 0
      = List.countP (fun cid =>
          decide (cellPos cid
            = ancPos (lfChicago 0 0) (cellLevel cid)))
          [2 ^ 60, 2 ^ 61 + 2 ^ 60]) :=
  ⟨by decide,
    search_key_contribution lfChicago oneItem
      (Reachable.set NewCollection 0 (some 7) 0 0 Reachable.new)
      0 ⟨some 7, 0, 0⟩ (by decide) [2 ^ 60, 2 ^ 61 + 2 ^ 60]⟩

/-- C7: Set-then-Delete round trip.  From any reachable state, after
`Set(k, v, lat, lon)` followed by `Delete(k)`, `ItemByKey(k)` returns the
absent indicator and no cell-index set at any level contains `k`. -/
theorem set_delete_roundtrip (lf : C → C → Nat) (c : Collection K V C)
    (hreach : Reachable lf c) (k : K) (v : Option V) (lat lon : C) :
    ((c.Set lf k v lat lon).Delete k).ItemByKey k = none ∧
    ∀ level pos, k ∉ ((c.Set lf k v lat lon).Delete k).cells level pos := by
  have hinv1 := inv_set lf c k v lat lon (inv_reachable lf c hreach)
  obtain ⟨h1, -, h3, -, -, -⟩ := delete_spec lf (c.Set lf k v lat lon) k hinv1
  constructor
  · show ((c.Set lf k v lat lon).delete k).ItemByKey k = none
    unfold Collection.ItemByKey
    rw [h1]
  · exact h3

theorem set_delete_roundtrip_witness :
    ((((NewCollection : Collection Nat Nat Int).Set lfChicago 5 (some 7) 2 3).Delete
        5).ItemByKey 5 = none) ∧
    ∀ level pos,
      5 ∉ (((NewCollection : Collection Nat Nat Int).Set lfChicago 5 (some 7) 2 3).Delete
        5).cells level pos :=
  set_delete_roundtrip lfChicago NewCollection Reachable.new 5 (some 7) 2 3

/-- C8: Pagination bounds for the spec-modelled `GetItems`: the result
holds at most `pageSize` contents values, and is the empty list whenever
`startIndex` is at least the number of stored items. -/
theorem getItems_bounds (c : Collection K V C) (pageSize startIndex : Nat) :
    (c.GetItems pageSize startIndex).length ≤ pageSize ∧
    (c.items.length ≤ startIndex → c.GetItems pageSize startIndex = []) := by
  constructor
  · exact List.length_take_le pageSize _
  · intro h
    unfold Collection.GetItems
    rw [List.drop_eq_nil_of_le (by simpa using h)]
    exact List.take_nil

theorem getItems_bounds_witness :
    (oneItem.GetItems 3 2).length ≤ 3 ∧
    (oneItem.items.length ≤ 2 → oneItem.GetItems 3 2 = []) :=
  getItems_bounds oneItem 3 2

/-- C9: a stored `nil` payload is indistinguishable from an absent key at
the `ItemByKey` interface: after `Set(k, nil, lat, lon)` the lookup of `k`
returns `nil` (`none`), exactly the value `ItemByKey` returns for any key
with no item record. -/
theorem itemByKey_nil_conflation (c c2 : Collection K V C)
    (lf : C → C → Nat) (k k2 : K) (lat lon : C)
    (h2 : itemsLookup c2.items k2 = none) :
    (c.Set lf k none lat lon).ItemByKey k = none ∧
    c2.ItemByKey k2 = none := by
  constructor
  · unfold Collection.ItemByKey
    rw [set_lookup_self]
  · unfold Collection.ItemByKey
    rw [h2]

theorem itemByKey_nil_conflation_witness :
    itemsLookup oneItem.items 4 = none ∧
    ((oneItem.Set lfChicago 4 none 0 0).ItemByKey 4 = none ∧
      oneItem.ItemByKey 4 = none) :=
  ⟨by decide,
    itemByKey_nil_conflation oneItem oneItem lfChicago 4 4 0 0 (by decide)⟩

/-- C10: `Delete` frames other keys.  Deleting a present key `k` leaves
another key `k2`'s item record, reverse-index entry, and membership in
every cell-index set unchanged. -/
theorem delete_frames_other_keys (c : Collection K V C) (k k2 : K)
    (hk : (itemsLookup c.items k).isSome) (hne : k2 ≠ k) :
    itemsLookup (c.Delete k).items k2 = itemsLookup c.items k2 ∧
    (c.Delete k).keys k2 = c.keys k2 ∧
    ∀ level pos,
      (k2 ∈ (c.Delete k).cells level pos ↔ k2 ∈ c.cells level pos) := by
  refine ⟨?_, ?_, ?_⟩
  · show itemsLookup (c.delete k).items k2 = _
    rw [delete_items]
    exact itemsLookup_erase_other c.items k k2 hne
  · show (c.delete k).keys k2 = _
    cases hks : c.keys k with
    | none => rw [delete_of_keys_none c k hks]
    | some idxs =>
      rw [delete_of_keys_some c k idxs hks]
      simp [hne]
  · intro level pos
    show k2 ∈ (c.delete k).cells level pos ↔ _
    cases hks : c.keys k with
    | none => rw [delete_of_keys_none c k hks]
    | some idxs =>
      rw [delete_of_keys_some c k idxs hks]
      exact mem_removeCells_of_ne k k2 hne idxs c.cells level pos

theorem delete_frames_other_keys_witness :
    ((itemsLookup (oneItem.Set lfChicago 1 (some 8) 4 4).items 0).isSome
        = true ∧ (1 : Nat) ≠ 0) ∧
    (itemsLookup ((oneItem.Set lfChicago 1 (some 8) 4 4).Delete 0).items 1
        = itemsLookup (oneItem.Set lfChicago 1 (some 8) 4 4).items 1 ∧
      ((oneItem.Set lfChicago 1 (some 8) 4 4).Delete 0).keys 1
        = (oneItem.Set lfChicago 1 (some 8) 4 4).keys 1 ∧
      ∀ level pos,
        (1 ∈ ((oneItem.Set lfChicago 1 (some 8) 4 4).Delete 0).cells level pos
          ↔ 1 ∈ (oneItem.Set lfChicago 1 (some 8) 4 4).cells level pos)) :=
  ⟨⟨by decide, by decide⟩,
    delete_frames_other_keys (oneItem.Set lfChicago 1 (some 8) 4 4) 0 1
      (by decide) (by decide)⟩
